import Mathlib

/-!
Verification development for the lab-tools pipeline (`1l-tools.py`).

The Python source is shallowly embedded: Python dicts become association
lists, Python strings become `List Char` (or `String` where no string
surgery is needed), fallible code returns `Except`, and the effectful
orchestration code (`PDFWriter`) becomes an explicit state machine whose
filesystem actions are recorded as data.  Each claim about the spec is
settled by a theorem at the end of the file.
-/

namespace LabTools

/-- A document fragment (`CodeGen`).  The `code` dict maps a section number
to the list of LaTeX source lines generated for that section; `lab` and
`checkpoints` are the lab number and checkpoint labels, each possibly null
exactly as in the Python constructor. -/
structure CodeGen where
  code : List (Nat × List String)
  lab : Option Nat
  checkpoints : Option (List String)
deriving DecidableEq

/-- Keys of a Python dict modelled as an association list. -/
def dictKeys (d : List (Nat × List String)) : List Nat := d.map Prod.fst

/-- Lookup in a Python dict modelled as an association list. -/
def dictFind (d : List (Nat × List String)) (k : Nat) : Option (List String) :=
  (d.find? (fun p => p.1 == k)).map Prod.snd

/-- The Python double-splat dict merge used in `CodeGen.__add__`: the keys
of `a` come first in their original order (taking `b`'s value whenever `b`
holds the same key), followed by the keys of `b` that are absent from `a`,
in `b`'s order. -/
def dictMerge (a b : List (Nat × List String)) : List (Nat × List String) :=
  a.map (fun p => (p.1, (dictFind b p.1).getD p.2)) ++
    b.filter (fun q => !(a.any (fun p => p.1 == q.1)))

/-- The Python idiom `x if x is not None else y` on optional values, used
for the `lab` and `checkpoints` fields in `CodeGen.__add__`. -/
def pyOr (x y : Option α) : Option α :=
  match x with
  | some v => some v
  | none => y

/-- `CodeGen.__add__`: merge the code dicts; `lab` and `checkpoints` are
inherited from the left operand when non-null, else from the right. -/
def CodeGen.add (a b : CodeGen) : CodeGen :=
  { code := dictMerge a.code b.code
    lab := pyOr a.lab b.lab
    checkpoints := pyOr a.checkpoints b.checkpoints }

/-- `CodeGen.mempty`: the identity fragment (empty dict, null lab, null
checkpoints). -/
def CodeGen.mempty : CodeGen := { code := [], lab := none, checkpoints := none }

/-- Two code dicts have disjoint key sets. -/
def KeysDisjoint (a b : List (Nat × List String)) : Prop :=
  ∀ k, k ∈ dictKeys a → k ∉ dictKeys b

instance (a b : List (Nat × List String)) : Decidable (KeysDisjoint a b) :=
  inferInstanceAs (Decidable (∀ k ∈ dictKeys a, k ∉ dictKeys b))

/-- `CodeGen.section` (renamed: `section` is reserved in Lean).  Returns the
unique key of the code dict when there is exactly one, and raises
`ValueError` otherwise. -/
def CodeGen.sectionKey (g : CodeGen) : Except String Nat :=
  if g.code.length = 1 then
    Except.ok (dictKeys g.code).headI
  else
    Except.error "generator has multiple sections. fatal error. check code"

/-- Number of groups computed by `Roster.set_groups`:
`min(6, n // 5 + (0 if n % 5 == 0 else 1))`. -/
def ngroups (n : Nat) : Nat :=
  min 6 (n / 5 + if n % 5 = 0 then 0 else 1)

/-- `Roster.set_groups`, acting on the student list after the in-place
`random.shuffle` (the shuffle only permutes the list, so the theorems below
quantify over every input order and draw permutation-invariant
conclusions).  The dealing loop
`zip(itertools.cycle(range(ngroups)), students)` appends the student at
position `i` to group `i % ngroups + 1`; group `k + 1` therefore collects,
in order, the students at positions congruent to `k` modulo the group
count. -/
def groupMembers (students : List α) (k : Nat) : List α :=
  (((List.range students.length).zip students).filter
    (fun p => p.1 % ngroups students.length == k)).map Prod.snd

/-- The group dict produced by `Roster.set_groups`: group numbers `1..G`
paired with their member lists. -/
def set_groups (students : List α) : List (Nat × List α) :=
  (List.range (ngroups students.length)).map fun k => (k + 1, groupMembers students k)

/-- Helper for reasoning about the dealing loop: classify a list into
buckets by a key function, bucket `k` holding the elements with key `k` in
their original order. -/
def buckets (f : α → Nat) (g : Nat) (l : List α) : List (List α) :=
  (List.range g).map fun k => l.filter (fun x => f x == k)

/-- Python `name.split(',')`: the comma-separated chunks of a string
(always one more chunk than there are commas). -/
def splitComma : List Char → List (List Char)
  | [] => [[]]
  | c :: rest =>
    match splitComma rest with
    | [] => []
    | p :: ps => if c = ',' then [] :: p :: ps else (c :: p) :: ps

/-- Python `str.strip()`: remove leading and trailing whitespace. -/
def pyStrip (l : List Char) : List Char :=
  ((l.dropWhile Char.isWhitespace).reverse.dropWhile Char.isWhitespace).reverse

/-- `StudentName`: `string` is the raw constructor argument; either
`full_name_fnf` is set (first-name-first branch) or `last_name` and
`first_name` are (comma branch), mirroring the Python constructor's
try/except on the two-element destructuring of `name.split(',')`. -/
structure StudentName where
  string : List Char
  full_name_fnf : Option (List Char)
  last_name : Option (List Char)
  first_name : Option (List Char)
deriving DecidableEq

/-- The `StudentName` constructor: exactly one comma yields the comma
branch (with both parts stripped), anything else keeps the whole string as
the first-name-first form. -/
def mkStudentName (name : List Char) : StudentName :=
  match splitComma name with
  | [l, f] => ⟨name, none, some (pyStrip l), some (pyStrip f)⟩
  | _ => ⟨name, some name, none, none⟩

/-- `StudentName.canonical`: first-name-first is the canonical form. -/
def canonical (s : StudentName) : List Char :=
  match s.full_name_fnf with
  | some f => f
  | none => s.first_name.getD [] ++ ' ' :: s.last_name.getD []

/-- `StudentName.canonicalize`: re-wrap the canonical form into a new
`StudentName`. -/
def canonicalize (s : StudentName) : StudentName :=
  mkStudentName (canonical s)

/-- `StudentName.__eq__`: equality compares the canonical forms (the hash
is likewise the string hash of the canonical form). -/
def nameEq (a b : StudentName) : Prop := canonical a = canonical b

/-- Python's substring test `needle in hay`. -/
def hasSubstr (hay needle : List Char) : Bool :=
  match hay with
  | [] => needle.isEmpty
  | c :: t => needle.isPrefixOf (c :: t) || hasSubstr t needle

/-- The per-job effect of one iteration of the loop in `PDFWriter.clean`:
which files are relocated from the scratch directory into the destination
directory, and whether the scratch directory is released
(`tmp.cleanup()`). -/
structure CleanAction where
  moved : List (List Char)
  scratchDeleted : Bool
deriving DecidableEq

/-- `os.path.join(parent, name)` (POSIX). -/
def joinPath (parent name : List Char) : List Char := parent ++ '/' :: name

/-- One iteration of the loop in `PDFWriter.clean` for the job `fname`
with captured stdout and destination directory `parent`: when stdout
contains `error` or `Error`, move the `.log` and `.tex` files (via
`shutil.move`, directly to the parent-joined names) and skip the cleanup;
otherwise move the produced `.pdf` artifact and release the scratch
directory. -/
def clean_job (parent fname stdout : List Char) : CleanAction :=
  if hasSubstr stdout "error".toList || hasSubstr stdout "Error".toList then
    { moved := [joinPath parent (fname ++ ".log".toList),
        joinPath parent (fname ++ ".tex".toList)]
      scratchDeleted := false }
  else
    { moved := [joinPath parent (fname ++ ".pdf".toList)]
      scratchDeleted := true }

/-- Decimal digit as a character. -/
def digitChar (d : Nat) : Char :=
  match d with
  | 0 => '0'
  | 1 => '1'
  | 2 => '2'
  | 3 => '3'
  | 4 => '4'
  | 5 => '5'
  | 6 => '6'
  | 7 => '7'
  | 8 => '8'
  | 9 => '9'
  | _ => '*'

/-- Little-endian decimal digits of `n`; the `fuel` argument only makes
the recursion structural, and any `fuel ≥ n` gives the true digit
string. -/
def natReprRev (fuel n : Nat) : List Char :=
  match fuel with
  | 0 => []
  | f + 1 => if n = 0 then [] else digitChar (n % 10) :: natReprRev f (n / 10)

/-- Python `str(i)` for a natural number (decimal). -/
def natRepr (n : Nat) : List Char :=
  if n = 0 then ['0'] else (natReprRev n n).reverse

/-- Python `str.rfind(c)`: index of the last occurrence of `c`, `-1` when
absent. -/
def rfind (c : Char) : List Char → Int
  | [] => -1
  | a :: t =>
    let r := rfind c t
    if r ≥ 0 then r + 1
    else if a = c then 0 else -1

/-- `os.path.splitext` (POSIX): split off the extension at the last dot,
unless every character of the final path component before that dot is
itself a dot. -/
def splitext (p : List Char) : List Char × List Char :=
  let sepIndex := rfind '/' p
  let dotIndex := rfind '.' p
  if sepIndex < dotIndex
      ∧ ((p.drop (sepIndex + 1).toNat).take (dotIndex - sepIndex - 1).toNat).any
          (fun ch => ch != '.') = true then
    (p.take dotIndex.toNat, p.drop dotIndex.toNat)
  else
    (p, [])

/-- The candidate `'\x7b\x7d({})\x7b\x7d'.format(prefix, i, ext)` tried by the
`maybe_overwrite` loop: the counter in parentheses goes immediately before
the extension. -/
def altPath (pre ext : List Char) (i : Nat) : List Char :=
  pre ++ '(' :: (natRepr i ++ ')' :: ext)

/-- The `for i in itertools.count(1)` search in `maybe_overwrite`: return
the first `altPath i` (for `i ≥ start`) that does not exist on disk.  The
`fuel` argument exists only to make the recursion structural for Lean;
`searchFrom_spec` below shows that fuel `fs.length + 1` never runs out, so
the `fuel = 0` fallback is dead code. -/
def searchFrom (fs : List (List Char)) (pre ext : List Char) : Nat → Nat → List Char
  | _, 0 => []
  | i, fuel + 1 =>
    if altPath pre ext i ∈ fs then searchFrom fs pre ext (i + 1) fuel
    else altPath pre ext i

/-- `MaybeOverwrite.maybe_overwrite`: the filesystem is modelled by the
finite list `fs` of paths that exist on disk (`os.path.exists`).  Returns
the path actually written to. -/
def maybe_overwrite (fs : List (List Char)) (fpath : List Char) (inplace : Bool) : List Char :=
  if fpath ∈ fs ∧ inplace = false then
    searchFrom fs (splitext fpath).1 (splitext fpath).2 1 (fs.length + 1)
  else fpath

/-- `SummaryAttendanceSheet.write`: resolves its fixed summary path through
`maybe_overwrite` with `inplace=False` before writing. -/
def summary_attendance_write (fs : List (List Char)) (fpath : List Char) : List Char :=
  maybe_overwrite fs fpath false

/-- `PublishedData.write` and `TAGradeSheets.write`: resolve their output
path through `maybe_overwrite` with the caller's `inplace` flag before
writing. -/
def grade_sheet_write (fs : List (List Char)) (fpath : List Char) (inplace : Bool) : List Char :=
  maybe_overwrite fs fpath inplace

/-- Which external compilers `shutil.which` finds (tectonic is probed
first). -/
inductive Avail where
  | tectonic
  | pdflatexOnly
  | neither
deriving DecidableEq

/-- The mutable state of a `PDFWriter`: the `sequential` flag and the keys
of the `procs` dict (jobs launched and not yet collected). -/
structure WriterState where
  sequential : Bool
  procs : List (List Char)
deriving DecidableEq

/-- `PDFWriter.__init__`: `sequential = True`, no retained processes. -/
def writerInit : WriterState := { sequential := true, procs := [] }

/-- Python dict key insertion `self.procs[fname] = ...`. -/
def dictInsertKey (l : List (List Char)) (k : List Char) : List (List Char) :=
  if k ∈ l then l else l ++ [k]

/-- `PDFWriter.call_ext`: record the launched process under `fname`; then,
if the `sequential` flag is still set, run a blocking `clean()` (which
waits on every retained process and empties `procs`). -/
def call_ext (s : WriterState) (fname : List Char) : WriterState :=
  let s1 : WriterState := { s with procs := dictInsertKey s.procs fname }
  if s1.sequential then { s1 with procs := [] } else s1

/-- `PDFWriter.write`: probe for `tectonic` first, then `pdflatex`, and
abort when neither is found.  In the `tectonic` branch `call_ext` runs
first (cleaning inline iff the flag is still set) and only afterwards is
`sequential` cleared; in the `pdflatex` branch the flag is cleared before
`call_ext`, so that path never cleans inline. -/
def write (avail : Avail) (s : WriterState) (fname : List Char) : Except String WriterState :=
  match avail with
  | .tectonic =>
    let s1 := call_ext s fname
    Except.ok { s1 with sequential := false }
  | .pdflatexOnly =>
    Except.ok (call_ext { s with sequential := false } fname)
  | .neither =>
    Except.error "pdflatex and tectonic not found. Do you have LaTeX installed and configured on your system?"

theorem dictKeys_append (a b : List (Nat × List String)) :
    dictKeys (a ++ b) = dictKeys a ++ dictKeys b :=
  List.map_append _ a b

theorem dictMerge_nil_right (a : List (Nat × List String)) : dictMerge a [] = a := by
  simp [dictMerge, dictFind]

theorem dictMerge_nil_left (b : List (Nat × List String)) : dictMerge [] b = b := by
  simp [dictMerge]

theorem dictMerge_eq_append {a b : List (Nat × List String)} (h : KeysDisjoint a b) :
    dictMerge a b = a ++ b := by
  unfold dictMerge
  have hmap : a.map (fun p => (p.1, (dictFind b p.1).getD p.2)) = a := by
    have : ∀ p ∈ a, (p.1, (dictFind b p.1).getD p.2) = p := by
      intro p hp
      have hfind : b.find? (fun q => q.1 == p.1) = none := by
        rw [List.find?_eq_none]
        intro q hq hbeq
        have hkq : q.1 = p.1 := by simpa using hbeq
        exact h p.1 (List.mem_map_of_mem Prod.fst hp)
          (hkq ▸ List.mem_map_of_mem Prod.fst hq)
      simp [dictFind, hfind]
    calc a.map (fun p => (p.1, (dictFind b p.1).getD p.2))
        = a.map id := List.map_congr_left this
      _ = a := List.map_id a
  have hfil : b.filter (fun q => !(a.any (fun p => p.1 == q.1))) = b := by
    rw [List.filter_eq_self]
    intro q hq
    simp only [Bool.not_eq_eq_eq_not, Bool.not_true, List.any_eq_false]
    intro p hp hbeq
    have hkp : p.1 = q.1 := by simpa using hbeq
    exact h p.1 (List.mem_map_of_mem Prod.fst hp)
      (hkp ▸ List.mem_map_of_mem Prod.fst hq)
  rw [hmap, hfil]

theorem pyOr_assoc (x y z : Option α) : pyOr (pyOr x y) z = pyOr x (pyOr y z) := by
  cases x <;> simp [pyOr]

theorem pyOr_none_right (x : Option α) : pyOr x none = x := by
  cases x <;> simp [pyOr]

/-- Claim C1: the fragment combination is a monoid — with pairwise-disjoint
section keys, `(A+B)+C` and `A+(B+C)` agree on keyed content, lab and
checkpoints, and combining with the identity fragment on either side leaves
a fragment unchanged in keyed content, lab and checkpoints. -/
theorem codegen_monoid (A B C : CodeGen)
    (hAB : KeysDisjoint A.code B.code) (hBC : KeysDisjoint B.code C.code)
    (hAC : KeysDisjoint A.code C.code) :
    (A.add B).add C = A.add (B.add C)
      ∧ A.add CodeGen.mempty = A ∧ CodeGen.mempty.add A = A := by
  refine ⟨?_, ?_, ?_⟩
  · have e1 : dictMerge A.code B.code = A.code ++ B.code := dictMerge_eq_append hAB
    have e2 : dictMerge B.code C.code = B.code ++ C.code := dictMerge_eq_append hBC
    have hABc : KeysDisjoint (A.code ++ B.code) C.code := by
      intro k hk
      rw [dictKeys_append, List.mem_append] at hk
      rcases hk with h | h
      · exact hAC k h
      · exact hBC k h
    have hAbc : KeysDisjoint A.code (B.code ++ C.code) := by
      intro k hk hmem
      rw [dictKeys_append, List.mem_append] at hmem
      rcases hmem with h | h
      · exact hAB k hk h
      · exact hAC k hk h
    simp only [CodeGen.add, e1, e2, dictMerge_eq_append hABc, dictMerge_eq_append hAbc]
    simp [List.append_assoc, pyOr_assoc]
  · cases A with
    | mk code lab checkpoints =>
      simp [CodeGen.add, CodeGen.mempty, dictMerge_nil_right, pyOr_none_right]
  · cases A with
    | mk code lab checkpoints =>
      simp [CodeGen.add, CodeGen.mempty, dictMerge_nil_left, pyOr]

/-- Witness for C1 at concrete fragments with disjoint keys. -/
theorem codegen_monoid_witness :
    KeysDisjoint [(1, ["a"])] [(2, ["b"])]
      ∧ ((CodeGen.mk [(1, ["a"])] (some 3) none).add
          (CodeGen.mk [(2, ["b"])] none (some ["c1"]))).add
          (CodeGen.mk [(5, ["c"])] (some 4) none)
        = (CodeGen.mk [(1, ["a"])] (some 3) none).add
            ((CodeGen.mk [(2, ["b"])] none (some ["c1"])).add
              (CodeGen.mk [(5, ["c"])] (some 4) none)) := by
  refine ⟨by decide, ?_⟩
  exact (codegen_monoid (CodeGen.mk [(1, ["a"])] (some 3) none)
    (CodeGen.mk [(2, ["b"])] none (some ["c1"]))
    (CodeGen.mk [(5, ["c"])] (some 4) none)
    (by decide) (by decide) (by decide)).1

/-- Claim C10: the section accessor is partial — it returns the unique key
of a single-section fragment, and raises `ValueError` whenever the fragment
holds zero or several section keys (in particular on the identity fragment
and on combined multi-section fragments). -/
theorem codegen_section_accessor (g : CodeGen) :
    (∀ k lines, g.code = [(k, lines)] → g.sectionKey = Except.ok k)
      ∧ (g.code.length ≠ 1 →
          g.sectionKey =
            Except.error "generator has multiple sections. fatal error. check code") := by
  constructor
  · rintro k lines h
    simp [CodeGen.sectionKey, h, dictKeys]
  · intro h
    simp [CodeGen.sectionKey, h]

/-- Witness for C10: the identity fragment raises, a one-section fragment
returns its key. -/
theorem codegen_section_accessor_witness :
    CodeGen.mempty.sectionKey =
        Except.error "generator has multiple sections. fatal error. check code"
      ∧ (CodeGen.mk [(3, ["x"])] (some 1) none).sectionKey = Except.ok 3 :=
  ⟨(codegen_section_accessor CodeGen.mempty).2 (by decide),
   (codegen_section_accessor (CodeGen.mk [(3, ["x"])] (some 1) none)).1 3 ["x"] rfl⟩

theorem buckets_flatten_perm (f : α → Nat) (g : Nat) :
    ∀ (l : List α), (∀ x ∈ l, f x < g) → List.Perm (buckets f g l).flatten l := by
  intro l
  induction l with
  | nil =>
    intro _
    have h0 : (buckets f g []).flatten = [] := by
      simp [buckets]
    rw [h0]
  | cons a t ih =>
    intro h
    have hfa : f a < g := h a (List.mem_cons_self a t)
    obtain ⟨m, hm⟩ : ∃ m, g = (f a + 1) + m := ⟨g - (f a + 1), by omega⟩
    have hsplit : List.range g = List.range (f a) ++ [f a]
        ++ (List.range m).map (fun i => (f a + 1) + i) := by
      rw [hm, List.range_add, List.range_succ]
    have hflat : ∀ (s : List α),
        (buckets f g s).flatten
          = ((List.range (f a)).map (fun k => s.filter (fun x => f x == k))).flatten
            ++ s.filter (fun x => f x == f a)
            ++ (((List.range m).map (fun i => (f a + 1) + i)).map
                  (fun k => s.filter (fun x => f x == k))).flatten := by
      intro s
      rw [buckets, hsplit]
      simp [List.map_append, List.flatten_append]
    have hlow : (List.range (f a)).map (fun k => (a :: t).filter (fun x => f x == k))
        = (List.range (f a)).map (fun k => t.filter (fun x => f x == k)) := by
      apply List.map_congr_left
      intro k hk
      have hne : ¬ (f a = k) := by
        have := List.mem_range.mp hk
        omega
      simp [List.filter_cons, hne]
    have hhigh : ((List.range m).map (fun i => (f a + 1) + i)).map
          (fun k => (a :: t).filter (fun x => f x == k))
        = ((List.range m).map (fun i => (f a + 1) + i)).map
          (fun k => t.filter (fun x => f x == k)) := by
      apply List.map_congr_left
      intro k hk
      have hne : ¬ (f a = k) := by
        obtain ⟨i, hi, rfl⟩ := List.mem_map.mp hk
        omega
      simp [List.filter_cons, hne]
    have hmid : (a :: t).filter (fun x => f x == f a)
        = a :: t.filter (fun x => f x == f a) := by
      simp [List.filter_cons]
    rw [hflat (a :: t), hlow, hhigh, hmid]
    have hassoc :
        ((List.range (f a)).map (fun k => t.filter (fun x => f x == k))).flatten
            ++ (a :: t.filter (fun x => f x == f a))
            ++ (((List.range m).map (fun i => (f a + 1) + i)).map
                  (fun k => t.filter (fun x => f x == k))).flatten
          = ((List.range (f a)).map (fun k => t.filter (fun x => f x == k))).flatten
            ++ a :: (t.filter (fun x => f x == f a)
              ++ (((List.range m).map (fun i => (f a + 1) + i)).map
                    (fun k => t.filter (fun x => f x == k))).flatten) := by
      simp [List.append_assoc]
    rw [hassoc]
    refine List.Perm.trans List.perm_middle ?_
    refine List.Perm.cons a ?_
    have hmain := ih (fun x hx => h x (List.mem_cons_of_mem a hx))
    rw [hflat t] at hmain
    simpa [List.append_assoc] using hmain

theorem ngroups_pos {n : Nat} (hn : n ≠ 0) : 0 < ngroups n := by
  unfold ngroups
  rw [Nat.lt_min]
  refine ⟨by omega, ?_⟩
  split_ifs with h <;> omega

theorem set_groups_map_snd (students : List α) :
    (set_groups students).map Prod.snd
      = (buckets (fun p => p.1 % ngroups students.length) (ngroups students.length)
          ((List.range students.length).zip students)).map (List.map Prod.snd) := by
  simp only [set_groups, groupMembers, buckets, List.map_map]
  rfl

theorem set_groups_flatten_perm (students : List α) :
    List.Perm ((set_groups students).map Prod.snd).flatten students := by
  by_cases hn : students.length = 0
  · have he : students = [] := List.eq_nil_of_length_eq_zero hn
    subst he
    simp [set_groups, ngroups]
  · have hg : 0 < ngroups students.length := ngroups_pos hn
    rw [set_groups_map_snd, ← List.map_flatten]
    have hb := buckets_flatten_perm (fun p => p.1 % ngroups students.length)
      (ngroups students.length) ((List.range students.length).zip students)
      (fun x _ => Nat.mod_lt _ hg)
    have hmap := hb.map Prod.snd
    rwa [List.map_snd_zip _ _ (by simp)] at hmap

theorem countP_mem_le_sum_count [DecidableEq α] (s : α) (L : List (List α)) :
    L.countP (fun l => decide (s ∈ l)) ≤ (L.map (List.count s)).sum := by
  induction L with
  | nil => simp
  | cons l L ih =>
    by_cases h : s ∈ l
    · rw [List.countP_cons_of_pos _ _ (by simpa using h)]
      simp only [List.map_cons, List.sum_cons]
      have h1 : 1 ≤ List.count s l := List.one_le_count_iff.mpr h
      omega
    · rw [List.countP_cons_of_neg _ _ (by simpa using h)]
      simp only [List.map_cons, List.sum_cons]
      omega

/-- Claim C3: after grouping, the groups' member lists together form a
permutation of the student list (no omissions, no duplications), the group
numbers are exactly the contiguous range `1..G`, and for a duplicate-free
roster every student belongs to exactly one group. -/
theorem set_groups_partition [DecidableEq α] (students : List α) :
    (set_groups students).map Prod.fst = List.range' 1 (ngroups students.length)
      ∧ List.Perm ((set_groups students).map Prod.snd).flatten students
      ∧ (students.Nodup → ∀ s ∈ students,
          (set_groups students).countP (fun p => decide (s ∈ p.2)) = 1) := by
  have hperm := set_groups_flatten_perm students
  refine ⟨?_, hperm, ?_⟩
  · simp only [set_groups, List.map_map, List.range'_eq_map_range]
    apply List.map_congr_left
    intro k _
    simp [Nat.add_comm]
  · intro hnd s hs
    have h1 : ((set_groups students).map Prod.snd).flatten.count s = 1 := by
      rw [hperm.count_eq s]
      exact List.count_eq_one_of_mem hnd hs
    have hle : (set_groups students).countP (fun p => decide (s ∈ p.2)) ≤ 1 := by
      calc (set_groups students).countP (fun p => decide (s ∈ p.2))
          = ((set_groups students).map Prod.snd).countP (fun l => decide (s ∈ l)) := by
            rw [List.countP_map]
            rfl
        _ ≤ (((set_groups students).map Prod.snd).map (List.count s)).sum :=
            countP_mem_le_sum_count s _
        _ = ((set_groups students).map Prod.snd).flatten.count s :=
            (List.count_flatten s _).symm
        _ = 1 := h1
    have hge : 0 < (set_groups students).countP (fun p => decide (s ∈ p.2)) := by
      rw [List.countP_pos_iff]
      have hsmem : s ∈ ((set_groups students).map Prod.snd).flatten :=
        hperm.mem_iff.mpr hs
      obtain ⟨l, hlL, hsl⟩ := List.mem_flatten.mp hsmem
      obtain ⟨p, hp, rfl⟩ := List.mem_map.mp hlL
      exact ⟨p, hp, by simpa using hsl⟩
    omega

/-- Witness for C3 at a concrete seven-student roster. -/
theorem set_groups_partition_witness :
    (set_groups [10, 11, 12, 13, 14, 15, 16]).countP (fun p => decide (10 ∈ p.2)) = 1 :=
  (set_groups_partition [10, 11, 12, 13, 14, 15, 16]).2.2 (by decide) 10 (by decide)

/-- Counterexample to claim C2 as stated: for a 35-student roster
(a multiple of 5), the code produces `min(6, 35/5) = 6` groups, not
`35/5 = 7` as the claim asserts. -/
theorem group_count_counterexample :
    ¬ (∀ (l : List Nat), l.length % 5 = 0 → (set_groups l).length = l.length / 5) := by
  intro h
  have h35 := h (List.range 35) (by decide)
  rw [show (set_groups (List.range 35)).length = 6 by decide] at h35
  simp at h35

/-- Claim C2 (amended): for every student list of size `N ≥ 0` the group
assignment produces exactly `min(6, ceil(N/5))` groups when `N mod 5 ≠ 0`,
and exactly `min(6, N/5)` groups when `N mod 5 = 0` (including `N = 0`,
which yields zero groups). -/
theorem group_count (students : List α) :
    (set_groups students).length =
      if students.length % 5 = 0 then min 6 (students.length / 5)
      else min 6 ((students.length + 4) / 5) := by
  have hlen : (set_groups students).length = ngroups students.length := by
    simp [set_groups]
  rw [hlen]
  unfold ngroups
  by_cases h : students.length % 5 = 0
  · simp [h]
  · simp only [h, if_false, if_neg h]
    congr 1
    omega

theorem length_filter_range_mod (g k : Nat) (hg : 0 < g) (hk : k < g) :
    ∀ n : Nat, ((List.range n).filter (fun i => i % g == k)).length
      = n / g + if k < n % g then 1 else 0 := by
  intro n
  induction n with
  | zero => simp
  | succ n ih =>
    rw [List.range_succ, List.filter_append, List.length_append, ih]
    have hmod : n % g < g := Nat.mod_lt n hg
    have hdiv : (n + 1) / g = n / g + (n % g + 1) / g := by
      conv_lhs => rw [← Nat.div_add_mod n g]
      rw [Nat.add_assoc, Nat.mul_add_div hg]
    have hmodd : (n + 1) % g = (n % g + 1) % g := by
      conv_lhs => rw [← Nat.div_add_mod n g]
      rw [Nat.add_assoc, Nat.mul_add_mod]
    have htail : ((List.filter (fun i => i % g == k) [n])).length
        = if n % g = k then 1 else 0 := by
      by_cases hnk : n % g = k <;> simp [hnk]
    rw [htail, hdiv, hmodd]
    by_cases hfull : n % g + 1 = g
    · rw [hfull, Nat.div_self hg, Nat.mod_self]
      split_ifs <;> omega
    · rw [Nat.div_eq_of_lt (show n % g + 1 < g by omega),
        Nat.mod_eq_of_lt (show n % g + 1 < g by omega)]
      split_ifs <;> omega

theorem length_filter_zip_mod (g k : Nat) :
    ∀ (a : List Nat) (b : List α), a.length = b.length →
      ((a.zip b).filter (fun p => p.1 % g == k)).length
        = (a.filter (fun i => i % g == k)).length := by
  intro a
  induction a with
  | nil => simp
  | cons x t ih =>
    intro b hb
    cases b with
    | nil => simp at hb
    | cons y s =>
      simp only [List.zip_cons_cons, List.filter_cons]
      by_cases h : (x % g == k) = true
      · simp only [h, if_true]
        simp [ih s (by simpa using hb)]
      · simp only [h, if_false]
        simp [ih s (by simpa using hb)]

theorem groupMembers_length (students : List α) {k : Nat}
    (hk : k < ngroups students.length) :
    (groupMembers students k).length
      = students.length / ngroups students.length
        + if k < students.length % ngroups students.length then 1 else 0 := by
  unfold groupMembers
  rw [List.length_map,
    length_filter_zip_mod (ngroups students.length) k _ _ (by simp)]
  exact length_filter_range_mod _ k (by omega) hk students.length

theorem mem_set_groups (students : List α) {k : Nat}
    (hk : k < ngroups students.length) :
    (k + 1, groupMembers students k) ∈ set_groups students := by
  rw [set_groups]
  exact List.mem_map_of_mem _ (List.mem_range.mpr hk)

theorem four_mul_ngroups_le_iff (n : Nat) :
    4 * ngroups n ≤ n
      ↔ ¬ (n = 1 ∨ n = 2 ∨ n = 3 ∨ n = 6 ∨ n = 7 ∨ n = 11) := by
  unfold ngroups
  rw [Nat.min_def]
  split_ifs <;> omega

/-- Counterexample to claim C8 as stated: a six-student roster is split
into two groups of three, so not every group reaches size 4 (while any
grouping formula could have used one group of six there). -/
theorem group_sizes_counterexample :
    ¬ (∀ (l : List Nat), l ≠ [] → ∀ p ∈ set_groups l, 4 ≤ p.2.length) := by
  intro h
  have h6 := h (List.range 6) (by decide) (2, [1, 3, 5]) (by decide)
  exact absurd h6 (by decide)

/-- Claim C8 (amended): for every non-empty student list the number of
groups never exceeds 6, and every group produced has size no less than 4
exactly when the student count is outside the exceptional set
containing 1, 2, 3, 6, 7 and 11 (for those counts the formula yields some
group smaller than 4). -/
theorem group_sizes (students : List α) (hne : students ≠ []) :
    (set_groups students).length ≤ 6
      ∧ ((∀ p ∈ set_groups students, 4 ≤ p.2.length)
          ↔ ¬ (students.length = 1 ∨ students.length = 2 ∨ students.length = 3
                ∨ students.length = 6 ∨ students.length = 7
                ∨ students.length = 11)) := by
  have hn : students.length ≠ 0 := by
    simpa [List.length_eq_zero] using hne
  have hg : 0 < ngroups students.length := ngroups_pos hn
  have hmod : students.length % ngroups students.length < ngroups students.length :=
    Nat.mod_lt _ hg
  constructor
  · have hlen : (set_groups students).length = ngroups students.length := by
      simp [set_groups]
    rw [hlen]
    exact Nat.min_le_left _ _
  · rw [← four_mul_ngroups_le_iff students.length]
    constructor
    · intro hall
      have hk : ngroups students.length - 1 < ngroups students.length := by omega
      have h4 := hall _ (mem_set_groups students hk)
      rw [groupMembers_length students hk] at h4
      rw [if_neg (by omega)] at h4
      exact (Nat.le_div_iff_mul_le hg).mp h4
    · intro h4g p hp
      obtain ⟨k, hk, rfl⟩ := List.mem_map.mp hp
      have hk' := List.mem_range.mp hk
      rw [groupMembers_length students hk']
      have hdiv : 4 ≤ students.length / ngroups students.length :=
        (Nat.le_div_iff_mul_le hg).mpr h4g
      split_ifs <;> omega

/-- Witness for C8 at a concrete twenty-student roster: at most six
groups, all of size at least 4. -/
theorem group_sizes_witness :
    (set_groups (List.range 20)).length ≤ 6
      ∧ (∀ p ∈ set_groups (List.range 20), 4 ≤ p.2.length) :=
  ⟨(group_sizes (List.range 20) (by decide)).1,
   ((group_sizes (List.range 20) (by decide)).2).mpr (by decide)⟩

theorem splitComma_cons (c : Char) (rest : List Char) :
    splitComma (c :: rest)
      = match splitComma rest with
        | [] => []
        | p :: ps => if c = ',' then [] :: p :: ps else (c :: p) :: ps := rfl

theorem splitComma_ne_nil : ∀ (l : List Char), splitComma l ≠ []
  | [] => by simp [splitComma]
  | c :: rest => by
    rw [splitComma_cons]
    rcases h : splitComma rest with _ | ⟨p, ps⟩
    · exact (splitComma_ne_nil rest h).elim
    · show (if c = ',' then [] :: p :: ps else (c :: p) :: ps) ≠ []
      split_ifs <;> simp

theorem splitComma_no_comma {l : List Char} (h : ',' ∉ l) : splitComma l = [l] := by
  induction l with
  | nil => rfl
  | cons c rest ih =>
    have hc : ¬ (c = ',') := fun hcc => h (hcc ▸ List.mem_cons_self c rest)
    have hrest : ',' ∉ rest := fun hr => h (List.mem_cons_of_mem c hr)
    rw [splitComma_cons, ih hrest]
    show (if c = ',' then [] :: [rest] else (c :: rest) :: []) = [c :: rest]
    simp [hc]

theorem splitComma_append {a : List Char} (b : List Char) (ha : ',' ∉ a) :
    splitComma (a ++ ',' :: b) = a :: splitComma b := by
  induction a with
  | nil =>
    simp only [List.nil_append]
    rw [splitComma_cons]
    rcases h : splitComma b with _ | ⟨p, ps⟩
    · exact (splitComma_ne_nil b h).elim
    · show (if (',' : Char) = ',' then [] :: p :: ps else (',' :: p) :: ps)
        = [] :: p :: ps
      simp
  | cons c rest ih =>
    have hc : ¬ (c = ',') := fun hcc => ha (hcc ▸ List.mem_cons_self c rest)
    have hrest : ',' ∉ rest := fun hr => ha (List.mem_cons_of_mem c hr)
    simp only [List.cons_append]
    rw [splitComma_cons, ih hrest]
    show (if c = ',' then [] :: rest :: splitComma b
        else (c :: rest) :: splitComma b)
      = (c :: rest) :: splitComma b
    simp [hc]

theorem splitComma_parts_no_comma : ∀ (l : List Char), ∀ p ∈ splitComma l, ',' ∉ p := by
  intro l
  induction l with
  | nil =>
    intro p hp
    simp only [splitComma, List.mem_singleton] at hp
    subst hp
    simp
  | cons c rest ih =>
    intro p hp
    rw [splitComma_cons] at hp
    rcases h : splitComma rest with _ | ⟨q, qs⟩
    · exact (splitComma_ne_nil rest h).elim
    · rw [h] at hp
      have hp' : p ∈ (if c = ',' then [] :: q :: qs else (c :: q) :: qs) := hp
      by_cases hc : c = ','
      · rw [if_pos hc] at hp'
        rcases List.mem_cons.mp hp' with rfl | hp2
        · simp
        · exact ih p (by rw [h]; exact hp2)
      · rw [if_neg hc] at hp'
        rcases List.mem_cons.mp hp' with rfl | hp2
        · intro hmem
          rcases List.mem_cons.mp hmem with h1 | h1
          · exact hc h1.symm
          · exact ih q (by rw [h]; exact List.mem_cons_self q qs) h1
        · exact ih p (by rw [h]; exact List.mem_cons_of_mem q hp2)

theorem pyStrip_subset {l : List Char} : ∀ x ∈ pyStrip l, x ∈ l := by
  intro x hx
  unfold pyStrip at hx
  rw [List.mem_reverse] at hx
  have h1 : x ∈ (l.dropWhile Char.isWhitespace).reverse :=
    (List.dropWhile_sublist _).mem hx
  rw [List.mem_reverse] at h1
  exact (List.dropWhile_sublist _).mem h1

theorem dropWhile_ws_space (l : List Char) :
    (' ' :: l).dropWhile Char.isWhitespace = l.dropWhile Char.isWhitespace := by
  rw [List.dropWhile_cons, if_pos (by decide)]

theorem pyStrip_space_cons (l : List Char) : pyStrip (' ' :: l) = pyStrip l := by
  unfold pyStrip
  rw [dropWhile_ws_space]

/-- Claim C9: the two textual representations of a name canonicalize to
the same identity — a `StudentName` built from a comma form equals (and
hashes equal to) one built from the first-name-first form — and
re-wrapping any `StudentName` into its canonical form preserves
equality. -/
theorem studentName_canonicalization (first late : List Char)
    (hf : ',' ∉ first) (hl : ',' ∉ late)
    (hsf : pyStrip first = first) (hsl : pyStrip late = late) :
    nameEq (mkStudentName (late ++ ',' :: ' ' :: first))
        (mkStudentName (first ++ ' ' :: late))
      ∧ (∀ hashF : List Char → Int,
          hashF (canonical (mkStudentName (late ++ ',' :: ' ' :: first)))
            = hashF (canonical (mkStudentName (first ++ ' ' :: late))))
      ∧ (∀ raw : List Char,
          nameEq (canonicalize (mkStudentName raw)) (mkStudentName raw)) := by
  have hsplit1 : splitComma (late ++ ',' :: ' ' :: first) = [late, ' ' :: first] := by
    rw [splitComma_append _ hl, splitComma_no_comma (l := ' ' :: first)]
    intro hmem
    rcases List.mem_cons.mp hmem with h1 | h1
    · exact absurd h1 (by decide)
    · exact hf h1
  have hnc2 : ',' ∉ first ++ ' ' :: late := by
    intro hmem
    rcases List.mem_append.mp hmem with h1 | h1
    · exact hf h1
    · rcases List.mem_cons.mp h1 with h2 | h2
      · exact absurd h2 (by decide)
      · exact hl h2
  have hcanon1 : canonical (mkStudentName (late ++ ',' :: ' ' :: first))
      = first ++ ' ' :: late := by
    unfold mkStudentName
    rw [hsplit1]
    simp [canonical, pyStrip_space_cons, hsf, hsl]
  have hcanon2 : canonical (mkStudentName (first ++ ' ' :: late))
      = first ++ ' ' :: late := by
    unfold mkStudentName
    rw [splitComma_no_comma hnc2]
    simp [canonical]
  refine ⟨?_, ?_, ?_⟩
  · unfold nameEq
    rw [hcanon1, hcanon2]
  · intro hashF
    rw [hcanon1, hcanon2]
  · intro raw
    unfold nameEq canonicalize
    rcases h : splitComma raw with _ | ⟨p, ps⟩
    · exact (splitComma_ne_nil raw h).elim
    · rcases ps with _ | ⟨q, qs⟩
      · have hc : canonical (mkStudentName raw) = raw := by
          unfold mkStudentName
          rw [h]
          simp [canonical]
        rw [hc]
        exact hc
      · rcases qs with _ | ⟨r, rs⟩
        · have hc : canonical (mkStudentName raw) = pyStrip q ++ ' ' :: pyStrip p := by
            unfold mkStudentName
            rw [h]
            simp [canonical]
          have hnp : ',' ∉ pyStrip q ++ ' ' :: pyStrip p := by
            intro hmem
            rcases List.mem_append.mp hmem with h1 | h1
            · exact splitComma_parts_no_comma raw q (by rw [h]; simp)
                (pyStrip_subset _ h1)
            · rcases List.mem_cons.mp h1 with h2 | h2
              · exact absurd h2 (by decide)
              · exact splitComma_parts_no_comma raw p (by rw [h]; simp)
                  (pyStrip_subset _ h2)
          rw [hc]
          unfold mkStudentName
          rw [splitComma_no_comma hnp]
          simp [canonical]
        · have hc : canonical (mkStudentName raw) = raw := by
            unfold mkStudentName
            rw [h]
            simp [canonical]
          rw [hc]
          exact hc

/-- Witness for C9 at the concrete name John Doe. -/
theorem studentName_canonicalization_witness :
    nameEq (mkStudentName (['D', 'o', 'e'] ++ ',' :: ' ' :: ['J', 'o', 'h', 'n']))
        (mkStudentName (['J', 'o', 'h', 'n'] ++ ' ' :: ['D', 'o', 'e'])) :=
  (studentName_canonicalization ['J', 'o', 'h', 'n'] ['D', 'o', 'e']
    (by decide) (by decide) (by decide) (by decide)).1

theorem hasSubstr_correct (needle : List Char) :
    ∀ hay, hasSubstr hay needle = true ↔ needle <:+: hay := by
  intro hay
  induction hay with
  | nil => simp [hasSubstr, List.isEmpty_iff, List.infix_nil]
  | cons c t ih =>
    have hstep : hasSubstr (c :: t) needle
        = (needle.isPrefixOf (c :: t) || hasSubstr t needle) := rfl
    rw [hstep, Bool.or_eq_true, ih, List.isPrefixOf_iff_prefix]
    exact (List.infix_cons_iff).symm

/-- Claim C4: collection classifies each job on the captured stdout — an
occurrence of the substring `error` or `Error` makes it relocate the
`.log` and the `.tex` source (and no artifact) while keeping the scratch
directory; otherwise it relocates the `.pdf` artifact and deletes the
scratch directory. -/
theorem clean_classification (parent fname stdout : List Char) :
    (("error".toList <:+: stdout ∨ "Error".toList <:+: stdout) →
      clean_job parent fname stdout
        = { moved := [joinPath parent (fname ++ ".log".toList),
              joinPath parent (fname ++ ".tex".toList)]
            scratchDeleted := false })
    ∧ (¬ ("error".toList <:+: stdout ∨ "Error".toList <:+: stdout) →
      clean_job parent fname stdout
        = { moved := [joinPath parent (fname ++ ".pdf".toList)]
            scratchDeleted := true }) := by
  have hiff : (hasSubstr stdout "error".toList || hasSubstr stdout "Error".toList) = true
      ↔ ("error".toList <:+: stdout ∨ "Error".toList <:+: stdout) := by
    rw [Bool.or_eq_true, hasSubstr_correct, hasSubstr_correct]
  constructor
  · intro h
    have hb := hiff.mpr h
    unfold clean_job
    rw [hb]
    simp
  · intro h
    have hb : (hasSubstr stdout "error".toList || hasSubstr stdout "Error".toList) = false := by
      cases hcase : (hasSubstr stdout "error".toList || hasSubstr stdout "Error".toList) with
      | false => rfl
      | true => exact absurd (hiff.mp hcase) h
    unfold clean_job
    rw [hb]
    simp

/-- Witness for C4: the spec's example message classifies as failure (log
and source relocated, scratch kept), a clean output as success (artifact
relocated, scratch deleted). -/
theorem clean_classification_witness :
    clean_job "out".toList "r".toList "Error: undefined control sequence".toList
        = { moved := [joinPath "out".toList ("r".toList ++ ".log".toList),
              joinPath "out".toList ("r".toList ++ ".tex".toList)]
            scratchDeleted := false }
      ∧ clean_job "out".toList "r".toList "All ok".toList
        = { moved := [joinPath "out".toList ("r".toList ++ ".pdf".toList)]
            scratchDeleted := true } :=
  ⟨(clean_classification "out".toList "r".toList _).1
      (Or.inr ((hasSubstr_correct "Error".toList _).mp (by decide))),
   (clean_classification "out".toList "r".toList _).2
      (by
        intro hor
        rcases hor with h | h
        · have hb := (hasSubstr_correct "error".toList "All ok".toList).mpr h
          exact absurd hb (by decide)
        · have hb := (hasSubstr_correct "Error".toList "All ok".toList).mpr h
          exact absurd hb (by decide))⟩

theorem natReprRev_zero (fuel : Nat) : natReprRev fuel 0 = [] := by
  cases fuel <;> simp [natReprRev]

theorem natReprRev_ne_nil {fuel n : Nat} (hn : n ≠ 0) (hf : n ≤ fuel) :
    natReprRev fuel n ≠ [] := by
  cases fuel with
  | zero => omega
  | succ f => simp [natReprRev, hn]

theorem digitChar_inj_lt : ∀ d < 10, ∀ e < 10, digitChar d = digitChar e → d = e := by
  decide

theorem natReprRev_inj : ∀ (n1 fuel1 fuel2 n2 : Nat), n1 ≤ fuel1 → n2 ≤ fuel2 →
    natReprRev fuel1 n1 = natReprRev fuel2 n2 → n1 = n2 := by
  intro n1
  induction n1 using Nat.strong_induction_on with
  | _ n1 ih =>
    intro fuel1 fuel2 n2 h1 h2 heq
    by_cases hz1 : n1 = 0
    · subst hz1
      rw [natReprRev_zero] at heq
      by_contra hz2
      exact natReprRev_ne_nil (fun hn => hz2 hn.symm) h2 heq.symm
    · by_cases hz2 : n2 = 0
      · subst hz2
        rw [natReprRev_zero] at heq
        exact absurd heq (natReprRev_ne_nil hz1 h1)
      · cases fuel1 with
        | zero => omega
        | succ f1 =>
          cases fuel2 with
          | zero => omega
          | succ f2 =>
            simp only [natReprRev] at heq
            rw [if_neg hz1, if_neg hz2] at heq
            injection heq with hhead htail
            have hmod : n1 % 10 = n2 % 10 :=
              digitChar_inj_lt _ (by omega) _ (by omega) hhead
            have hdiv : n1 / 10 = n2 / 10 :=
              ih (n1 / 10) (by omega) f1 f2 (n2 / 10) (by omega) (by omega) htail
            omega

theorem natRepr_inj_pos {i j : Nat} (hi : i ≠ 0) (hj : j ≠ 0)
    (h : natRepr i = natRepr j) : i = j := by
  unfold natRepr at h
  rw [if_neg hi, if_neg hj] at h
  exact natReprRev_inj i i j j (le_refl i) (le_refl j) (List.reverse_injective h)

theorem altPath_inj {pre ext : List Char} {i j : Nat} (hi : i ≠ 0) (hj : j ≠ 0)
    (h : altPath pre ext i = altPath pre ext j) : i = j := by
  unfold altPath at h
  have h1 := List.append_cancel_left h
  injection h1 with _ h2
  have hlen : (natRepr i).length = (natRepr j).length := by
    have hl := congrArg List.length h2
    simp [List.length_append] at hl
    omega
  exact natRepr_inj_pos hi hj (List.append_inj h2 hlen).1

theorem exists_free_candidate (fs : List (List Char)) (pre ext : List Char)
    (start : Nat) (hs : start ≠ 0) :
    ∃ d ≤ fs.length, altPath pre ext (start + d) ∉ fs := by
  by_contra hall
  push_neg at hall
  have hsub : (Finset.range (fs.length + 1)).image (fun d => altPath pre ext (start + d))
      ⊆ fs.toFinset := by
    intro x hx
    obtain ⟨d, hd, rfl⟩ := Finset.mem_image.mp hx
    rw [List.mem_toFinset]
    exact hall d (Nat.lt_succ_iff.mp (Finset.mem_range.mp hd))
  have hinj : Set.InjOn (fun d => altPath pre ext (start + d))
      (Finset.range (fs.length + 1)) := by
    intro a _ b _ hab
    have hse := altPath_inj (i := start + a) (j := start + b) (by omega) (by omega) hab
    omega
  have hcard := Finset.card_image_of_injOn hinj
  rw [Finset.card_range] at hcard
  have hle := Finset.card_le_card hsub
  rw [hcard] at hle
  have hfin := fs.toFinset_card_le
  omega

theorem searchFrom_spec (fs : List (List Char)) (pre ext : List Char) :
    ∀ (fuel start : Nat), start ≠ 0 →
      (∃ d < fuel, altPath pre ext (start + d) ∉ fs) →
      ∃ i, start ≤ i ∧ searchFrom fs pre ext start fuel = altPath pre ext i
        ∧ altPath pre ext i ∉ fs
        ∧ ∀ j, start ≤ j → j < i → altPath pre ext j ∈ fs := by
  intro fuel
  induction fuel with
  | zero =>
    intro start hs hex
    obtain ⟨d, hd, _⟩ := hex
    omega
  | succ fuel ih =>
    intro start hs hex
    by_cases hmem : altPath pre ext start ∈ fs
    · have hstep : searchFrom fs pre ext start (fuel + 1)
          = searchFrom fs pre ext (start + 1) fuel := by
        simp only [searchFrom]
        rw [if_pos hmem]
      have hex' : ∃ d < fuel, altPath pre ext (start + 1 + d) ∉ fs := by
        obtain ⟨d, hd, hfree⟩ := hex
        rcases d with _ | d'
        · exact absurd hmem (by simpa using hfree)
        · refine ⟨d', by omega, ?_⟩
          have harith : start + 1 + d' = start + (d' + 1) := by omega
          rw [harith]
          exact hfree
      obtain ⟨i, hi1, hi2, hi3, hi4⟩ := ih (start + 1) (by omega) hex'
      refine ⟨i, by omega, by rw [hstep]; exact hi2, hi3, ?_⟩
      intro j hj1 hj2
      rcases Nat.eq_or_lt_of_le hj1 with rfl | hj
      · exact hmem
      · exact hi4 j (by omega) hj2
    · have hstep : searchFrom fs pre ext start (fuel + 1) = altPath pre ext start := by
        simp only [searchFrom]
        rw [if_neg hmem]
      exact ⟨start, le_refl _, hstep, hmem,
        fun j hj1 hj2 => ((by omega : False)).elim⟩

theorem maybe_overwrite_keep {fs : List (List Char)} {fpath : List Char} {inplace : Bool}
    (h : inplace = true ∨ fpath ∉ fs) :
    maybe_overwrite fs fpath inplace = fpath := by
  unfold maybe_overwrite
  rcases h with h | h
  · rw [if_neg]
    rintro ⟨_, hfalse⟩
    rw [h] at hfalse
    cases hfalse
  · rw [if_neg]
    rintro ⟨hmem, _⟩
    exact h hmem

theorem maybe_overwrite_search (fs : List (List Char)) (fpath : List Char)
    (hmem : fpath ∈ fs) :
    ∃ i, 1 ≤ i
      ∧ maybe_overwrite fs fpath false = altPath (splitext fpath).1 (splitext fpath).2 i
      ∧ altPath (splitext fpath).1 (splitext fpath).2 i ∉ fs
      ∧ ∀ j, 1 ≤ j → j < i → altPath (splitext fpath).1 (splitext fpath).2 j ∈ fs := by
  unfold maybe_overwrite
  rw [if_pos ⟨hmem, rfl⟩]
  have hex : ∃ d < fs.length + 1,
      altPath (splitext fpath).1 (splitext fpath).2 (1 + d) ∉ fs := by
    obtain ⟨d, hd, hfree⟩ := exists_free_candidate fs _ _ 1 one_ne_zero
    exact ⟨d, by omega, hfree⟩
  exact searchFrom_spec fs _ _ (fs.length + 1) 1 one_ne_zero hex

theorem maybe_overwrite_not_mem (fs : List (List Char)) (fpath : List Char) :
    maybe_overwrite fs fpath false ∉ fs := by
  by_cases hmem : fpath ∈ fs
  · obtain ⟨i, _, h2, h3, _⟩ := maybe_overwrite_search fs fpath hmem
    rw [h2]
    exact h3
  · rw [maybe_overwrite_keep (Or.inr hmem)]
    exact hmem

/-- Claim C5: the resolver returns the path unchanged when overwrite is
allowed or nothing exists there; otherwise it returns the first candidate
with the counter `(1)`, `(2)`, … inserted immediately before the file
extension that does not already exist on disk. -/
theorem maybe_overwrite_spec (fs : List (List Char)) (fpath : List Char) (inplace : Bool) :
    ((inplace = true ∨ fpath ∉ fs) → maybe_overwrite fs fpath inplace = fpath)
    ∧ (inplace = false → fpath ∈ fs →
        ∃ i, 1 ≤ i
          ∧ maybe_overwrite fs fpath inplace
              = altPath (splitext fpath).1 (splitext fpath).2 i
          ∧ altPath (splitext fpath).1 (splitext fpath).2 i ∉ fs
          ∧ ∀ j, 1 ≤ j → j < i →
              altPath (splitext fpath).1 (splitext fpath).2 j ∈ fs) :=
  ⟨maybe_overwrite_keep,
   fun hip hmem => by
    subst hip
    exact maybe_overwrite_search fs fpath hmem⟩

/-- Witness for C5: with `report.pdf` and `report(1).pdf` both on disk,
resolution with overwrite disallowed yields `report(2).pdf`; with
overwrite allowed it yields `report.pdf` itself. -/
theorem maybe_overwrite_spec_witness :
    (∃ i, 1 ≤ i
      ∧ maybe_overwrite ["report.pdf".toList, "report(1).pdf".toList]
            "report.pdf".toList false
          = altPath (splitext "report.pdf".toList).1 (splitext "report.pdf".toList).2 i
      ∧ altPath (splitext "report.pdf".toList).1 (splitext "report.pdf".toList).2 i
          ∉ ["report.pdf".toList, "report(1).pdf".toList]
      ∧ ∀ j, 1 ≤ j → j < i →
          altPath (splitext "report.pdf".toList).1 (splitext "report.pdf".toList).2 j
            ∈ ["report.pdf".toList, "report(1).pdf".toList])
    ∧ maybe_overwrite ["report.pdf".toList, "report(1).pdf".toList]
        "report.pdf".toList false = "report(2).pdf".toList
    ∧ maybe_overwrite ["report.pdf".toList, "report(1).pdf".toList]
        "report.pdf".toList true = "report.pdf".toList :=
  ⟨(maybe_overwrite_spec ["report.pdf".toList, "report(1).pdf".toList]
      "report.pdf".toList false).2 rfl (by decide),
   by decide,
   (maybe_overwrite_spec ["report.pdf".toList, "report(1).pdf".toList]
      "report.pdf".toList true).1 (Or.inl rfl)⟩

/-- Counterexample to claim C6 as stated: the artifact relocation in
`PDFWriter.clean` moves to the fixed parent-joined destination name even
when a file already exists there, without routing through the resolver. -/
theorem resolver_routing_counterexample :
    ¬ (∀ (parent fname stdout : List Char) (fs : List (List Char)),
        ∀ q ∈ (clean_job parent fname stdout).moved, q ∉ fs) := by
  intro h
  exact h "out".toList "r".toList [] ["out/r.pdf".toList] "out/r.pdf".toList
    (by decide) (by decide)

/-- Claim C6 (amended): the spreadsheet and CSV writers (the
`MaybeOverwrite` subclasses) route their final write through the
disambiguating resolver, so without an explicit overwrite opt-in their
writes never land on an existing path; the `.pdf`/`.log`/`.tex`
relocations in `PDFWriter.clean`, however, move directly to the fixed
parent-joined destination names without consulting the resolver. -/
theorem resolver_routing (fs : List (List Char)) (fpath parent fname stdout : List Char) :
    summary_attendance_write fs fpath ∉ fs
    ∧ (∀ inplace, inplace = false → grade_sheet_write fs fpath inplace ∉ fs)
    ∧ (clean_job parent fname stdout).moved
        = (if hasSubstr stdout "error".toList || hasSubstr stdout "Error".toList then
            [joinPath parent (fname ++ ".log".toList),
              joinPath parent (fname ++ ".tex".toList)]
          else [joinPath parent (fname ++ ".pdf".toList)]) := by
  refine ⟨maybe_overwrite_not_mem fs fpath, ?_, ?_⟩
  · intro inplace hip
    subst hip
    exact maybe_overwrite_not_mem fs fpath
  · unfold clean_job
    split_ifs <;> rfl

/-- Witness for C6 at a concrete one-file filesystem. -/
theorem resolver_routing_witness :
    summary_attendance_write ["a.x".toList] "a.x".toList ∉ ["a.x".toList]
      ∧ grade_sheet_write ["a.x".toList] "a.x".toList false ∉ ["a.x".toList] :=
  ⟨(resolver_routing ["a.x".toList] "a.x".toList [] [] []).1,
   (resolver_routing ["a.x".toList] "a.x".toList [] [] []).2.1 false rfl⟩

/-- Counterexample to claim C7 as stated: once the first tectonic submit
has cleared the `sequential` flag (the state below is exactly the one
reached after one submit from the initial state), a later submit returns
with jobs still retained in flight instead of collecting them. -/
theorem write_sequential_counterexample :
    ¬ (∀ (s : WriterState) (fname : List Char) (s' : WriterState),
        write Avail.tectonic s fname = Except.ok s' → s'.procs = []) := by
  intro h
  have h2 := h { sequential := false, procs := ["a".toList] } "b".toList
    { sequential := false, procs := ["a".toList, "b".toList] } rfl
  exact absurd h2 (by decide)

/-- Claim C7 (amended): under the fast-compiler (tectonic) policy only a
submit that still sees the `sequential` flag — i.e. the first one — is
immediately followed by a blocking collection before returning
(`call_ext` runs before the flag is cleared); every later tectonic submit,
and every pdflatex submit, returns with its job appended to the retained
in-flight set and nothing collected, so jobs may overlap after the first;
with no compiler found the program aborts. -/
theorem write_policy (s : WriterState) (fname : List Char) :
    (s.sequential = true →
      write Avail.tectonic s fname = Except.ok { sequential := false, procs := [] })
    ∧ (s.sequential = false →
      write Avail.tectonic s fname
        = Except.ok { sequential := false, procs := dictInsertKey s.procs fname })
    ∧ write Avail.pdflatexOnly s fname
        = Except.ok { sequential := false, procs := dictInsertKey s.procs fname }
    ∧ (∃ msg, write Avail.neither s fname = Except.error msg) := by
  refine ⟨?_, ?_, ?_, ⟨_, rfl⟩⟩
  · intro h
    simp [write, call_ext, h]
  · intro h
    simp [write, call_ext, h]
  · simp [write, call_ext]

/-- Witness for C7: the very first submit under tectonic collects before
returning; the next one leaves its job in flight. -/
theorem write_policy_witness :
    write Avail.tectonic writerInit "a".toList
        = Except.ok { sequential := false, procs := [] }
      ∧ write Avail.tectonic { sequential := false, procs := ["a".toList] } "b".toList
        = Except.ok { sequential := false, procs := ["a".toList, "b".toList] } := by
  constructor
  · exact (write_policy writerInit "a".toList).1 rfl
  · have h2 := (write_policy { sequential := false, procs := ["a".toList] } "b".toList).2.1 rfl
    rw [h2]
    rfl

end LabTools
